import Mathlib

/-!
# Verification of the `road_map` graph engine

Shallow embedding of `src/road_map.py` (classes `_Vertex` and `Graph`).

Modelling conventions:

* Items (the opaque hashable identities stored in vertices) are modelled as `Nat`.
* A `_Vertex` is a record of its `item` and its `neighbours`.  In Python the
  neighbour set holds references to sibling `_Vertex` objects; following the
  spec's arena design note (§9) we store the neighbours' identities and resolve
  them through the owning graph's vertex mapping.  Python's `set` is modelled as
  a duplicate-free list; set iteration order is unspecified in Python, the model
  fixes insertion order.
* The dict `Graph._vertices` is modelled as an association list with
  first-occurrence lookup and dict-assignment update (`setEntry`).
* The traversal helpers mutate state (`visited` sets / path stacks) in place and
  read the graph; the embedding threads that state, including the graph itself,
  through every call, so that "the graph is never written" is a provable
  statement rather than a modelling assumption.
* The recursion depth guards are translated to a structurally decreasing fuel:
  `check_connected`'s `depth` (guard `depth > 20`) becomes `fuel = 21 - depth`;
  `check_connected_path`'s `depth` (guard `depth <= max_depth`) becomes
  `fuel = max_depth + 1 - depth`; `check_connected_distance`'s integer budget
  `d` (guard `d < 0`) becomes `fuel = (d + 1).toNat`.
* Python exceptions (`ValueError` of `add_edge`, `max([])` of `max_degree`) are
  modelled explicitly: `addEdgeRaises` is the raise condition (the state-update
  function `addEdge` leaves the graph unchanged exactly when it raises, as the
  Python code checks before mutating), and `maxDegreeS` returns an `Option`.
-/

/-- The `_Vertex` class: the data stored in a vertex and the identities of its
neighbours (`road_map.py` lines 15-28). -/
structure Vertex where
  item : Nat
  neighbours : List Nat
deriving DecidableEq

/-- The `Graph` class: maps item to `_Vertex` object (`road_map.py` lines 110-121);
a Python dict modelled as an association list. -/
structure Graph where
  vertices : List (Nat × Vertex)
deriving DecidableEq

/-- Constructor `Graph.__init__`: the empty graph. -/
def Graph.empty : Graph := ⟨[]⟩

/-- Dict lookup: first entry with the given key. -/
def lookupV : List (Nat × Vertex) → Nat → Option Vertex
  | [], _ => none
  | (k, v) :: rest, i => if k = i then some v else lookupV rest i

def Graph.lookup (g : Graph) (i : Nat) : Option Vertex := lookupV g.vertices i

/-- Membership test `item in self._vertices`. -/
def Graph.present (g : Graph) (i : Nat) : Bool := (g.lookup i).isSome

/-- The neighbour list of the vertex stored for `i` (empty if `i` is absent). -/
def Graph.nbrsOf (g : Graph) (i : Nat) : List Nat :=
  ((g.lookup i).map Vertex.neighbours).getD []

/-- Dict assignment `d[k] = v`: replace the first entry with key `k`,
or append a new entry. -/
def setEntry : List (Nat × Vertex) → Nat → Vertex → List (Nat × Vertex)
  | [], k, v => [(k, v)]
  | (k', v') :: rest, k, v =>
    if k' = k then (k, v) :: rest else (k', v') :: setEntry rest k v

/-- Update the value of the first entry with key `k` (no-op if absent). -/
def updateFirst : List (Nat × Vertex) → Nat → (Vertex → Vertex) → List (Nat × Vertex)
  | [], _, _ => []
  | (k', v) :: rest, k, f =>
    if k' = k then (k', f v) :: rest else (k', v) :: updateFirst rest k f

/-- Mutator `Graph.add_vertex` (`road_map.py` lines 123-131):
`self._vertices[item] = _Vertex(item, set())`. -/
def Graph.addVertex (g : Graph) (i : Nat) : Graph :=
  ⟨setEntry g.vertices i ⟨i, []⟩⟩

/-- Python `set.add` on a neighbour set: append if not already a member. -/
def insertNbr (x : Nat) (l : List Nat) : List Nat :=
  if x ∈ l then l else l ++ [x]

/-- Add `x` to the neighbour set of the vertex stored for `i`. -/
def addNbr (g : Graph) (i x : Nat) : Graph :=
  ⟨updateFirst g.vertices i (fun v => ⟨v.item, insertNbr x v.neighbours⟩)⟩

/-- Mutator `Graph.add_edge` (`road_map.py` lines 133-150), the state it leaves behind:
when both items are present, `v1.neighbours.add(v2); v2.neighbours.add(v1)`;
otherwise a `ValueError` is raised before anything is mutated, so the graph is
returned unchanged. -/
def Graph.addEdge (g : Graph) (i1 i2 : Nat) : Graph :=
  if g.present i1 && g.present i2 then addNbr (addNbr g i1 i2) i2 i1 else g

/-- Mutator `Graph.add_edge`, the raise condition: `ValueError` iff one of the two
items is not a vertex of the graph. -/
def Graph.addEdgeRaises (g : Graph) (i1 i2 : Nat) : Bool :=
  !(g.present i1 && g.present i2)

/-- Graphs reachable from the empty graph through the two mutators used as
documented: `add_vertex` under its precondition `item not in self._vertices`,
`add_edge` under its precondition `item1 != item2` with both items present
(so that it does not raise). -/
inductive Built : Graph → Prop
  | empty : Built Graph.empty
  | addV {g : Graph} {i : Nat} :
      Built g → g.present i = false → Built (g.addVertex i)
  | addE {g : Graph} {i j : Nat} :
      Built g → i ≠ j → g.present i = true → g.present j = true →
      Built (g.addEdge i j)

/-! ## Simple queries -/

/-- Query `Graph.adjacent` (`road_map.py` lines 152-161), with the (read-only) graph
state threaded through: `any(u.item == item1 for u in v2.neighbours)`. -/
def Graph.adjacentS (g : Graph) (i1 i2 : Nat) : Bool × Graph :=
  match g.lookup i1, g.lookup i2 with
  | some _, some v2 => (v2.neighbours.any (fun u => u == i1), g)
  | _, _ => (false, g)

def Graph.adjacent (g : Graph) (i1 i2 : Nat) : Bool := (g.adjacentS i1 i2).1

/-- Query `Graph.list_neighbours` (`road_map.py` lines 163-172):
`[u.item for u in v.neighbours]`, `None` if the item is absent. -/
def Graph.listNeighboursS (g : Graph) (i : Nat) : Option (List Nat) × Graph :=
  match g.lookup i with
  | some v => (some v.neighbours, g)
  | none => (none, g)

/-- Query `Graph.num_edges` (`road_map.py` lines 174-176):
`sum(len(self._vertices[u].neighbours) for u in self._vertices) // 2`. -/
def Graph.numEdgesS (g : Graph) : Nat × Graph :=
  ((g.vertices.map (fun p => (g.nbrsOf p.1).length)).sum / 2, g)

/-- Query `Graph.max_degree` (`road_map.py` lines 178-181):
`max([len(self._vertices[u].neighbours) for u in self._vertices])`;
`max` on an empty list raises, modelled as `none`. -/
def Graph.maxDegreeS (g : Graph) : Option Nat × Graph :=
  ((g.vertices.map (fun p => (g.nbrsOf p.1).length)).max?, g)

/-! ## `_Vertex.check_connected` and `Graph.connected`

`check_connected` (`road_map.py` lines 30-49) is a depth-first search over a
single `visited` set that is mutated in place and shared across the whole
search.  The `for u in self.neighbours: if u not in visited: ...` loop is
`dfsFoldWith`; the loop re-reads the (mutated) `visited` set at every
iteration, so the embedding threads it, together with the graph, through every
call.  The guard `depth > 20` of a call at depth `d` becomes fuel `21 - d`
(fuel `0` returns `False` before even comparing the items, matching the
source's order of checks). -/

def insertNew (x : Nat) (l : List Nat) : List Nat :=
  if x ∈ l then l else x :: l

def dfsFoldWith (f : Nat → List Nat → Graph → Bool × List Nat × Graph) :
    List Nat → List Nat → Graph → Bool × List Nat × Graph
  | [], vis, g => (false, vis, g)
  | u :: rest, vis, g =>
    if u ∈ vis then dfsFoldWith f rest vis g
    else
      match f u vis g with
      | (true, vis2, g2) => (true, vis2, g2)
      | (false, vis2, g2) => dfsFoldWith f rest vis2 g2

def dfsVisit (t : Nat) : Nat → Nat → List Nat → Graph → Bool × List Nat × Graph
  | 0, _, vis, g => (false, vis, g)
  | fuel + 1, cur, vis, g =>
    if cur = t then (true, vis, g)
    else dfsFoldWith (dfsVisit t fuel) (g.nbrsOf cur) (insertNew cur vis) g

/-- Query `Graph.connected` (`road_map.py` lines 183-193): `False` if an item is
absent, else `check_connected(item2, set())` starting from `item1`'s vertex
(depth `0`, i.e. fuel `21`). -/
def Graph.connectedS (g : Graph) (i1 i2 : Nat) : Bool × Graph :=
  if g.present i1 && g.present i2 then
    ((dfsVisit i2 21 i1 [] g).1, (dfsVisit i2 21 i1 [] g).2.2)
  else (false, g)

def Graph.connected (g : Graph) (i1 i2 : Nat) : Bool := (g.connectedS i1 i2).1

/-! ## Simple paths (used to state what `connected` finds) -/

/-- Consecutive elements are linked through the neighbour lists. -/
def chainOk (g : Graph) : List Nat → Bool
  | x :: y :: rest => decide (y ∈ g.nbrsOf x) && chainOk g (y :: rest)
  | _ => true

/-- A finite simple path from `a` to `b` in the graph. -/
def IsSimplePath (g : Graph) (a b : Nat) (p : List Nat) : Prop :=
  p ≠ [] ∧ p.head? = some a ∧ p.getLast? = some b ∧ p.Nodup ∧ chainOk g p = true

instance (g : Graph) (a b : Nat) (p : List Nat) : Decidable (IsSimplePath g a b p) := by
  unfold IsSimplePath; infer_instance

/-! ## Concrete graphs used for counterexamples and witnesses -/

def mkGraph (vs : List Nat) (es : List (Nat × Nat)) : Graph :=
  es.foldl (fun g e => g.addEdge e.1 e.2) (vs.foldl Graph.addVertex Graph.empty)

/-- The end-to-end example graph of the spec (§8): vertices `{0,1,2,3}`
standing for `{A,B,C,D}`, edges `(0,1),(1,2),(2,3)`. -/
def gW : Graph :=
  (((((((Graph.empty.addVertex 0).addVertex 1).addVertex 2).addVertex
      3).addEdge 0 1).addEdge 1 2).addEdge 2 3)

/-- A graph on which the depth-capped shared-visited DFS misses a length-2
path: a chain `0-1-…-19-20` (so vertex `20` is first reached at call depth 20,
gets marked visited there, and its neighbours are cut off by the depth guard)
plus the shortcut edges `0-20` and `20-21`. -/
def gC1 : Graph :=
  mkGraph (List.range 22)
    ((List.range 20).map (fun k => (k, k + 1)) ++ [(0, 20), (20, 21)])

/-- A bare chain `0-1-…-21` of 21 edges: its two endpoints are connected only
by a path that needs call depth 21. -/
def gChain : Graph :=
  mkGraph (List.range 22) ((List.range 21).map (fun k => (k, k + 1)))

/-! ## `_Vertex.check_connected_path` and the path queries

`check_connected_path` (`road_map.py` lines 51-80) pushes `self.item` onto both
the `visited` stack and the `path` stack, and — while `depth <= max_depth` —
possibly records a copy of the current path in `final_path` and recurses into
the neighbours whose item is not on the `visited` stack; on exit it pops both
stacks.  All four pieces of state (the two stacks, the result list, and the
graph, which is only read) are threaded through `PState`.  A call at depth `d`
carries fuel `max_depth + 1 - d`. -/

structure PState where
  visited : List Nat
  path : List Nat
  final : List (List Nat)
  graph : Graph
deriving DecidableEq

/-- The loop `for i in range(0, min(len(path), len(last))): if last[i] == path[i]: count += 1`
of `road_map.py` lines 67-69: positions where the two lists agree, over their
overlapping length. -/
def countMatch : List Nat → List Nat → Nat
  | a :: as, b :: bs => (if a = b then 1 else 0) + countMatch as bs
  | _, _ => 0

/-- The recording step of `check_connected_path` (`road_map.py` lines 62-73):
if the current item equals the target and the current path is not already
recorded, append a copy of it — unconditionally when `final_path` is empty,
and otherwise only when the number of positions where it agrees with the most
recently recorded path (`final_path[len(final_path) - 1]`) is below
`len(path) - len(path) // 3`. -/
def acceptStep (t cur : Nat) (path : List Nat) (final : List (List Nat)) :
    List (List Nat) :=
  if cur = t ∧ path ∉ final then
    if final.length ≠ 0 then
      if countMatch (final.getLastD []) path < path.length - path.length / 3 then
        final ++ [path]
      else final
    else final ++ [path]
  else final

/-- The loop `for i in self.neighbours: if i.item not in visited: i.check_connected_path(...)`
(`road_map.py` lines 74-76); the membership test reads the `visited` stack as
it stands at that iteration. -/
def ccpFoldWith (f : Nat → PState → PState) : List Nat → PState → PState
  | [], s => s
  | u :: rest, s =>
    if u ∈ s.visited then ccpFoldWith f rest s
    else ccpFoldWith f rest (f u s)

def ccpVisit (t : Nat) : Nat → Nat → PState → PState
  | 0, cur, s =>
    -- depth > max_depth: push both stacks, skip the body, pop both stacks
    ⟨(s.visited ++ [cur]).dropLast, (s.path ++ [cur]).dropLast, s.final, s.graph⟩
  | fuel + 1, cur, s =>
    let s2 := ccpFoldWith (ccpVisit t fuel) (s.graph.nbrsOf cur)
      ⟨s.visited ++ [cur], s.path ++ [cur],
       acceptStep t cur (s.path ++ [cur]) s.final, s.graph⟩
    ⟨s2.visited.dropLast, s2.path.dropLast, s2.final, s2.graph⟩

/-- Query `Graph.connected_path` (`road_map.py` lines 195-207): `None` if an item is
absent; otherwise run `check_connected_path` from `item1`'s vertex with fresh
empty containers at depth `0` — with the caller's `max_depth` when it is at
most `20`, and with the default `20` otherwise.  The outermost call's path
stack empties on return, so it yields the accumulated `final_path` (possibly
`[]`). -/
def Graph.connectedPathS (g : Graph) (i1 i2 maxDepth : Nat) :
    Option (List (List Nat)) × Graph :=
  if g.present i1 && g.present i2 then
    ((some (ccpVisit i2 ((if maxDepth ≤ 20 then maxDepth else 20) + 1) i1
        ⟨[], [], [], g⟩).final),
     (ccpVisit i2 ((if maxDepth ≤ 20 then maxDepth else 20) + 1) i1
        ⟨[], [], [], g⟩).graph)
  else (none, g)

def Graph.connectedPath (g : Graph) (i1 i2 maxDepth : Nat) :
    Option (List (List Nat)) :=
  (g.connectedPathS i1 i2 maxDepth).1

/-- Modelled from the spec: the delegation `connectedPath` is claimed to
perform — "absent (null) if either item unknown; else delegates to
`Vertex.enumeratePaths` with fresh empty stacks/results and the given depth
cap" (spec §4.2), i.e. with cap `maxDepth` itself rather than the code's
`min maxDepth 20`.  Used only to compare the code against the claim's words. -/
def specConnectedPath (g : Graph) (i1 i2 maxDepth : Nat) :
    Option (List (List Nat)) :=
  if g.present i1 && g.present i2 then
    some (ccpVisit i2 (maxDepth + 1) i1 ⟨[], [], [], g⟩).final
  else none

/-- The minimum-length scan of `Graph.shortest_path` (`road_map.py` lines
217-220): `min_path = paths[0]; for item in paths: if len(item) < len(min_path):
min_path = item`. -/
def minPath (init : List Nat) (paths : List (List Nat)) : List Nat :=
  paths.foldl (fun m q => if q.length < m.length then q else m) init

/-- Query `Graph.shortest_path` (`road_map.py` lines 209-221): run `connected_path`
with the default depth cap `20`; `None` if it returned `None` or `[]`; else the
first path of minimum length. -/
def Graph.shortestPathS (g : Graph) (i1 i2 : Nat) : Option (List Nat) × Graph :=
  ((match (g.connectedPathS i1 i2 20).1 with
    | none => none
    | some [] => none
    | some (p :: ps) => some (minPath p (p :: ps))),
   (g.connectedPathS i1 i2 20).2)

def Graph.shortestPath (g : Graph) (i1 i2 : Nat) : Option (List Nat) :=
  (g.shortestPathS i1 i2).1

/-! ## `_Vertex.check_connected_distance` and `Graph.connected_distance`

`check_connected_distance` (`road_map.py` lines 82-97) extends the visited set
functionally (`visited.union({self})` builds a fresh set per call) and spends
one unit of the integer budget `d` per edge:
`any(u.check_connected_distance(target_item, new_visited, d - 1) for u in
self.neighbours if u not in new_visited)`.  A call with budget `d` carries fuel
`(d + 1).toNat`: fuel `0` is `d < 0` (return `False`; the success test
`self.item == target_item and d >= 0` also fails there), and at fuel `n + 1`
(so `d >= 0`) the item test alone decides success. -/

def ccdAnyWith (f : Nat → List Nat → Graph → Bool × Graph) :
    List Nat → List Nat → Graph → Bool × Graph
  | [], _, g => (false, g)
  | u :: rest, nv, g =>
    if u ∈ nv then ccdAnyWith f rest nv g
    else
      match f u nv g with
      | (true, g2) => (true, g2)
      | (false, g2) => ccdAnyWith f rest nv g2

def ccdVisit (t : Nat) : Nat → Nat → List Nat → Graph → Bool × Graph
  | 0, _, _, g => (false, g)
  | fuel + 1, cur, vis, g =>
    if cur = t then (true, g)
    else ccdAnyWith (ccdVisit t fuel) (g.nbrsOf cur) (insertNew cur vis) g

/-- Query `Graph.connected_distance` (`road_map.py` lines 223-235): `False` if
`d > 20` or either item is absent; else `check_connected_distance(item2, set(), d)`
from `item1`'s vertex. -/
def Graph.connectedDistanceS (g : Graph) (i1 i2 : Nat) (d : Int) : Bool × Graph :=
  if d > 20 then (false, g)
  else if g.present i1 && g.present i2 then ccdVisit i2 (d + 1).toNat i1 [] g
  else (false, g)

def Graph.connectedDistance (g : Graph) (i1 i2 : Nat) (d : Int) : Bool :=
  (g.connectedDistanceS i1 i2 d).1

/-! # Lemmas

## Dictionary and neighbour-set lemmas -/

theorem lookupV_setEntry (l : List (Nat × Vertex)) (k : Nat) (v : Vertex) (j : Nat) :
    lookupV (setEntry l k v) j = if j = k then some v else lookupV l j := by
  induction l with
  | nil =>
    by_cases h : j = k
    · subst h; simp [setEntry, lookupV]
    · simp [setEntry, lookupV, h, Ne.symm h]
  | cons p rest ih =>
    obtain ⟨k', v'⟩ := p
    by_cases h1 : k' = k
    · subst h1
      by_cases h2 : j = k'
      · subst h2; simp [setEntry, lookupV]
      · simp [setEntry, lookupV, h2, Ne.symm h2]
    · by_cases h2 : k' = j
      · subst h2
        have h3 : ¬(k' = k) := h1
        simp [setEntry, lookupV, h1, h3]
      · simp [setEntry, lookupV, h1, h2, ih]

theorem lookupV_updateFirst (l : List (Nat × Vertex)) (k : Nat) (f : Vertex → Vertex)
    (j : Nat) :
    lookupV (updateFirst l k f) j =
      if j = k then (lookupV l k).map f else lookupV l j := by
  induction l with
  | nil =>
    by_cases h : j = k
    · subst h; simp [updateFirst, lookupV]
    · simp [updateFirst, lookupV, h]
  | cons p rest ih =>
    obtain ⟨k', v'⟩ := p
    by_cases h1 : k' = k
    · subst h1
      by_cases h2 : j = k'
      · subst h2; simp [updateFirst, lookupV]
      · simp [updateFirst, lookupV, h2, Ne.symm h2]
    · by_cases h2 : k' = j
      · subst h2
        have h3 : ¬(k' = k) := h1
        simp [updateFirst, lookupV, h1, h3]
      · simp [updateFirst, lookupV, h1, h2, ih]

theorem updateFirst_fix {l : List (Nat × Vertex)} {k : Nat} {f : Vertex → Vertex}
    {v : Vertex} (hl : lookupV l k = some v) (hf : f v = v) :
    updateFirst l k f = l := by
  induction l with
  | nil => simp [updateFirst]
  | cons p rest ih =>
    obtain ⟨k', v'⟩ := p
    by_cases h1 : k' = k
    · subst h1
      simp only [lookupV, eq_self_iff_true, if_true, Option.some.injEq] at hl
      subst hl
      simp [updateFirst, hf]
    · simp only [lookupV, if_neg h1] at hl
      simp [updateFirst, h1, ih hl]

theorem mem_setEntry {l : List (Nat × Vertex)} {k : Nat} {v : Vertex}
    {p : Nat × Vertex} (hp : p ∈ setEntry l k v) : p = (k, v) ∨ p ∈ l := by
  induction l with
  | nil => simp [setEntry] at hp; exact Or.inl hp
  | cons q rest ih =>
    obtain ⟨k', v'⟩ := q
    by_cases h1 : k' = k
    · subst h1
      simp only [setEntry, eq_self_iff_true, if_true, List.mem_cons] at hp
      rcases hp with h2 | h2
      · exact Or.inl h2
      · exact Or.inr (List.mem_cons_of_mem _ h2)
    · simp only [setEntry, if_neg h1, List.mem_cons] at hp
      rcases hp with h2 | h2
      · exact Or.inr (by simp [h2])
      · rcases ih h2 with h3 | h3
        · exact Or.inl h3
        · exact Or.inr (List.mem_cons_of_mem _ h3)

theorem mem_updateFirst {l : List (Nat × Vertex)} {k : Nat} {f : Vertex → Vertex}
    {p : Nat × Vertex} (hp : p ∈ updateFirst l k f) :
    p ∈ l ∨ ∃ q ∈ l, q.1 = k ∧ p = (q.1, f q.2) := by
  induction l with
  | nil => simp [updateFirst] at hp
  | cons q rest ih =>
    obtain ⟨k', v'⟩ := q
    by_cases h1 : k' = k
    · subst h1
      simp only [updateFirst, eq_self_iff_true, if_true, List.mem_cons] at hp
      rcases hp with h2 | h2
      · exact Or.inr ⟨(k', v'), by simp, rfl, h2⟩
      · exact Or.inl (List.mem_cons_of_mem _ h2)
    · simp only [updateFirst, if_neg h1, List.mem_cons] at hp
      rcases hp with h2 | h2
      · exact Or.inl (by simp [h2])
      · rcases ih h2 with h3 | ⟨q, hq, hq1, hq2⟩
        · exact Or.inl (List.mem_cons_of_mem _ h3)
        · exact Or.inr ⟨q, List.mem_cons_of_mem _ hq, hq1, hq2⟩

theorem mem_insertNbr {y x : Nat} {l : List Nat} :
    y ∈ insertNbr x l ↔ y = x ∨ y ∈ l := by
  by_cases h : x ∈ l
  · simp only [insertNbr, if_pos h]
    constructor
    · exact Or.inr
    · rintro (rfl | hy)
      · exact h
      · exact hy
  · simp only [insertNbr, if_neg h, List.mem_append, List.mem_singleton]
    exact or_comm

theorem self_mem_insertNbr (x : Nat) (l : List Nat) : x ∈ insertNbr x l :=
  mem_insertNbr.mpr (Or.inl rfl)

theorem insertNbr_idem (x : Nat) (l : List Nat) :
    insertNbr x (insertNbr x l) = insertNbr x l := by
  have h := self_mem_insertNbr x l
  show (if x ∈ insertNbr x l then insertNbr x l else insertNbr x l ++ [x]) =
    insertNbr x l
  rw [if_pos h]

/-! ## Effect of the mutators on lookups -/

theorem present_addNbr (g : Graph) (i x j : Nat) :
    (addNbr g i x).present j = g.present j := by
  simp only [Graph.present, Graph.lookup, addNbr, lookupV_updateFirst]
  by_cases h : j = i <;> simp [h]

theorem nbrsOf_addNbr_self {g : Graph} {i : Nat} (x : Nat)
    (h : g.present i = true) :
    (addNbr g i x).nbrsOf i = insertNbr x (g.nbrsOf i) := by
  rw [Graph.present, Option.isSome_iff_exists] at h
  obtain ⟨v, hv⟩ := h
  simp [Graph.nbrsOf, Graph.lookup, addNbr, lookupV_updateFirst,
    show lookupV g.vertices i = some v from hv]

theorem nbrsOf_addNbr_ne (g : Graph) {i j : Nat} (x : Nat) (h : j ≠ i) :
    (addNbr g i x).nbrsOf j = g.nbrsOf j := by
  simp [Graph.nbrsOf, Graph.lookup, addNbr, lookupV_updateFirst, h]

theorem present_addVertex (g : Graph) (i j : Nat) :
    (g.addVertex i).present j = if j = i then true else g.present j := by
  simp only [Graph.present, Graph.lookup, Graph.addVertex, lookupV_setEntry]
  by_cases h : j = i <;> simp [h]

theorem nbrsOf_addVertex (g : Graph) (i j : Nat) :
    (g.addVertex i).nbrsOf j = if j = i then [] else g.nbrsOf j := by
  simp only [Graph.nbrsOf, Graph.lookup, Graph.addVertex, lookupV_setEntry]
  by_cases h : j = i <;> simp [h]

theorem addEdge_of_present {g : Graph} {i1 i2 : Nat}
    (h1 : g.present i1 = true) (h2 : g.present i2 = true) :
    g.addEdge i1 i2 = addNbr (addNbr g i1 i2) i2 i1 := by
  simp [Graph.addEdge, h1, h2]

theorem present_addEdge (g : Graph) (i1 i2 j : Nat) :
    (g.addEdge i1 i2).present j = g.present j := by
  unfold Graph.addEdge
  split
  · simp [present_addNbr]
  · rfl

/-! ## The structural invariant of graphs built through the public mutators -/

/-- Well-formedness: every dict key maps to a vertex carrying that key as its
item; every recorded neighbour is a vertex of the graph; the neighbour
relation is symmetric; no vertex is its own neighbour. -/
structure WF (g : Graph) : Prop where
  items : ∀ p ∈ g.vertices, (p : Nat × Vertex).2.item = p.1
  nbrPresent : ∀ i x, x ∈ g.nbrsOf i → g.present x = true
  symm : ∀ i j, j ∈ g.nbrsOf i → i ∈ g.nbrsOf j
  irrefl : ∀ i, i ∉ g.nbrsOf i

theorem wf_empty : WF Graph.empty := by
  constructor <;> simp [Graph.empty, Graph.nbrsOf, Graph.lookup, lookupV]

theorem wf_addVertex {g : Graph} {i : Nat} (hg : WF g)
    (hi : g.present i = false) : WF (g.addVertex i) := by
  constructor
  · intro p hp
    rcases mem_setEntry hp with h | h
    · simp [h]
    · exact hg.items p h
  · intro a x hx
    rw [nbrsOf_addVertex] at hx
    by_cases ha : a = i
    · simp [ha] at hx
    · rw [if_neg ha] at hx
      have := hg.nbrPresent a x hx
      rw [present_addVertex]
      by_cases hxi : x = i <;> simp [hxi, this]
  · intro a b hb
    rw [nbrsOf_addVertex] at hb
    by_cases ha : a = i
    · simp [ha] at hb
    · rw [if_neg ha] at hb
      have hbp := hg.nbrPresent a b hb
      have hbi : b ≠ i := by
        intro h; rw [h] at hbp; rw [hbp] at hi; cases hi
      rw [nbrsOf_addVertex, if_neg hbi]
      exact hg.symm a b hb
  · intro a
    rw [nbrsOf_addVertex]
    by_cases ha : a = i
    · simp [ha]
    · rw [if_neg ha]; exact hg.irrefl a

theorem nbrsOf_addEdge_fst {g : Graph} {i j : Nat} (hne : i ≠ j)
    (hi : g.present i = true) (hj : g.present j = true) :
    (g.addEdge i j).nbrsOf i = insertNbr j (g.nbrsOf i) := by
  rw [addEdge_of_present hi hj, nbrsOf_addNbr_ne _ _ hne, nbrsOf_addNbr_self _ hi]

theorem nbrsOf_addEdge_snd {g : Graph} {i j : Nat} (hne : i ≠ j)
    (hi : g.present i = true) (hj : g.present j = true) :
    (g.addEdge i j).nbrsOf j = insertNbr i (g.nbrsOf j) := by
  have hj' : (addNbr g i j).present j = true := by rw [present_addNbr]; exact hj
  rw [addEdge_of_present hi hj, nbrsOf_addNbr_self _ hj',
    nbrsOf_addNbr_ne _ _ (Ne.symm hne)]

theorem nbrsOf_addEdge_other {g : Graph} {i j k : Nat}
    (hki : k ≠ i) (hkj : k ≠ j) :
    (g.addEdge i j).nbrsOf k = g.nbrsOf k := by
  unfold Graph.addEdge
  split
  · rw [nbrsOf_addNbr_ne _ _ hkj, nbrsOf_addNbr_ne _ _ hki]
  · rfl

theorem mem_nbrsOf_addEdge {g : Graph} {i j : Nat} (hne : i ≠ j)
    (hi : g.present i = true) (hj : g.present j = true) {a b : Nat} :
    b ∈ (g.addEdge i j).nbrsOf a ↔
      (a = i ∧ b = j) ∨ (a = j ∧ b = i) ∨ b ∈ g.nbrsOf a := by
  by_cases hai : a = i
  · subst hai
    rw [nbrsOf_addEdge_fst hne hi hj, mem_insertNbr]
    constructor
    · rintro (rfl | h)
      · exact Or.inl ⟨rfl, rfl⟩
      · exact Or.inr (Or.inr h)
    · rintro (⟨_, rfl⟩ | ⟨rfl, rfl⟩ | h)
      · exact Or.inl rfl
      · exact absurd rfl hne
      · exact Or.inr h
  · by_cases haj : a = j
    · subst haj
      rw [nbrsOf_addEdge_snd hne hi hj, mem_insertNbr]
      constructor
      · rintro (rfl | h)
        · exact Or.inr (Or.inl ⟨rfl, rfl⟩)
        · exact Or.inr (Or.inr h)
      · rintro (⟨rfl, rfl⟩ | ⟨_, rfl⟩ | h)
        · exact absurd rfl hne
        · exact Or.inl rfl
        · exact Or.inr h
    · rw [nbrsOf_addEdge_other hai haj]
      constructor
      · exact fun h => Or.inr (Or.inr h)
      · rintro (⟨h, _⟩ | ⟨h, _⟩ | h)
        · exact absurd h hai
        · exact absurd h haj
        · exact h

theorem wf_addEdge {g : Graph} {i j : Nat} (hg : WF g) (hne : i ≠ j)
    (hi : g.present i = true) (hj : g.present j = true) :
    WF (g.addEdge i j) := by
  constructor
  · intro p hp
    rw [addEdge_of_present hi hj] at hp
    rcases mem_updateFirst hp with hp2 | ⟨q, hq2, _, rfl⟩
    · rcases mem_updateFirst hp2 with hp3 | ⟨r, hr, _, rfl⟩
      · exact hg.items p hp3
      · simpa using hg.items r hr
    · rcases mem_updateFirst hq2 with hq3 | ⟨r, hr, _, rfl⟩
      · simpa using hg.items q hq3
      · simpa using hg.items r hr
  · intro a x hx
    rw [present_addEdge]
    rw [mem_nbrsOf_addEdge hne hi hj] at hx
    rcases hx with ⟨rfl, rfl⟩ | ⟨rfl, rfl⟩ | hx
    · exact hj
    · exact hi
    · exact hg.nbrPresent a x hx
  · intro a b hb
    rw [mem_nbrsOf_addEdge hne hi hj] at hb
    rw [mem_nbrsOf_addEdge hne hi hj]
    rcases hb with ⟨rfl, rfl⟩ | ⟨rfl, rfl⟩ | hb
    · exact Or.inr (Or.inl ⟨rfl, rfl⟩)
    · exact Or.inl ⟨rfl, rfl⟩
    · exact Or.inr (Or.inr (hg.symm a b hb))
  · intro a ha
    rw [mem_nbrsOf_addEdge hne hi hj] at ha
    rcases ha with ⟨rfl, h2⟩ | ⟨rfl, h2⟩ | ha
    · exact hne h2
    · exact hne h2.symm
    · exact hg.irrefl a ha

theorem built_wf {g : Graph} (h : Built g) : WF g := by
  induction h with
  | empty => exact wf_empty
  | addV _ hi ih => exact wf_addVertex ih hi
  | addE _ hne hi hj ih => exact wf_addEdge ih hne hi hj

/-! ## The traversals never write the graph (frame lemmas) -/

theorem mem_insertNew {y x : Nat} {l : List Nat} :
    y ∈ insertNew x l ↔ y = x ∨ y ∈ l := by
  by_cases h : x ∈ l
  · simp only [insertNew, if_pos h]
    constructor
    · exact Or.inr
    · rintro (rfl | hy)
      · exact h
      · exact hy
  · simp [insertNew, if_neg h]

theorem subset_insertNew (x : Nat) (l : List Nat) : l ⊆ insertNew x l :=
  fun _ hy => mem_insertNew.mpr (Or.inr hy)

theorem self_mem_insertNew (x : Nat) (l : List Nat) : x ∈ insertNew x l :=
  mem_insertNew.mpr (Or.inl rfl)

theorem dfsFoldWith_graph {f : Nat → List Nat → Graph → Bool × List Nat × Graph}
    (hf : ∀ u vis g, (f u vis g).2.2 = g) :
    ∀ us vis g, (dfsFoldWith f us vis g).2.2 = g := by
  intro us
  induction us with
  | nil => intro vis g; rfl
  | cons u rest ih =>
    intro vis g
    by_cases h : u ∈ vis
    · simp only [dfsFoldWith, if_pos h]; exact ih vis g
    · simp only [dfsFoldWith, if_neg h]
      rcases he : f u vis g with ⟨b, vis2, g2⟩
      have hg2 : g2 = g := by have := hf u vis g; rw [he] at this; exact this
      cases b
      · rw [hg2]; exact ih vis2 g
      · simpa using hg2

theorem dfsVisit_graph (t : Nat) :
    ∀ fuel cur vis g, (dfsVisit t fuel cur vis g).2.2 = g := by
  intro fuel
  induction fuel with
  | zero => intro cur vis g; rfl
  | succ f ih =>
    intro cur vis g
    by_cases h : cur = t
    · simp [dfsVisit, h]
    · simp only [dfsVisit, if_neg h]
      exact dfsFoldWith_graph (fun u v gg => ih u v gg) _ _ _

theorem dfsFoldWith_mono {f : Nat → List Nat → Graph → Bool × List Nat × Graph}
    (hf : ∀ u vis g, vis ⊆ (f u vis g).2.1) :
    ∀ us vis g, vis ⊆ (dfsFoldWith f us vis g).2.1 := by
  intro us
  induction us with
  | nil => intro vis g; exact fun _ h => h
  | cons u rest ih =>
    intro vis g
    by_cases h : u ∈ vis
    · simp only [dfsFoldWith, if_pos h]; exact ih vis g
    · simp only [dfsFoldWith, if_neg h]
      rcases he : f u vis g with ⟨b, vis2, g2⟩
      have hv2 : vis ⊆ vis2 := by
        have := hf u vis g; rw [he] at this; exact this
      cases b
      · exact fun x hx => ih vis2 g2 (hv2 hx)
      · simpa using hv2

theorem dfsVisit_mono (t : Nat) :
    ∀ fuel cur vis g, vis ⊆ (dfsVisit t fuel cur vis g).2.1 := by
  intro fuel
  induction fuel with
  | zero => intro cur vis g; exact fun _ h => h
  | succ f ih =>
    intro cur vis g
    by_cases h : cur = t
    · simp only [dfsVisit, if_pos h]; exact fun _ hh => hh
    · simp only [dfsVisit, if_neg h]
      exact fun x hx =>
        dfsFoldWith_mono (fun u v gg => ih u v gg) _ _ _ (subset_insertNew cur vis hx)

theorem ccpFoldWith_pres {f : Nat → PState → PState} {P : PState → Prop}
    (hf : ∀ u s, P s → P (f u s)) :
    ∀ us s, P s → P (ccpFoldWith f us s) := by
  intro us
  induction us with
  | nil => intro s hs; exact hs
  | cons u rest ih =>
    intro s hs
    by_cases h : u ∈ s.visited
    · simp only [ccpFoldWith, if_pos h]; exact ih s hs
    · simp only [ccpFoldWith, if_neg h]; exact ih (f u s) (hf u s hs)

theorem ccpVisit_restore (t : Nat) :
    ∀ fuel cur s, (ccpVisit t fuel cur s).visited = s.visited ∧
      (ccpVisit t fuel cur s).path = s.path ∧
      (ccpVisit t fuel cur s).graph = s.graph := by
  intro fuel
  induction fuel with
  | zero =>
    intro cur s
    exact ⟨List.dropLast_concat .., List.dropLast_concat .., rfl⟩
  | succ f ih =>
    intro cur s
    simp only [ccpVisit]
    have h2 := ccpFoldWith_pres
      (f := ccpVisit t f)
      (P := fun s' => s'.visited = s.visited ++ [cur] ∧ s'.path = s.path ++ [cur] ∧
        s'.graph = s.graph)
      (fun u s' hs' => by
        obtain ⟨hv, hp, hg⟩ := hs'
        obtain ⟨hv2, hp2, hg2⟩ := ih u s'
        exact ⟨hv2.trans hv, hp2.trans hp, hg2.trans hg⟩)
      (s.graph.nbrsOf cur)
      ⟨s.visited ++ [cur], s.path ++ [cur], acceptStep t cur (s.path ++ [cur]) s.final,
        s.graph⟩
      ⟨rfl, rfl, rfl⟩
    obtain ⟨hv, hp, hg⟩ := h2
    refine ⟨?_, ?_, hg⟩
    · rw [hv]; exact List.dropLast_concat ..
    · rw [hp]; exact List.dropLast_concat ..

theorem ccdAnyWith_graph {f : Nat → List Nat → Graph → Bool × Graph}
    (hf : ∀ u vis g, (f u vis g).2 = g) :
    ∀ us vis g, (ccdAnyWith f us vis g).2 = g := by
  intro us
  induction us with
  | nil => intro vis g; rfl
  | cons u rest ih =>
    intro vis g
    by_cases h : u ∈ vis
    · simp only [ccdAnyWith, if_pos h]; exact ih vis g
    · simp only [ccdAnyWith, if_neg h]
      rcases he : f u vis g with ⟨b, g2⟩
      have hg2 : g2 = g := by have := hf u vis g; rw [he] at this; exact this
      cases b
      · rw [hg2]; exact ih vis g
      · simpa using hg2

theorem ccdVisit_graph (t : Nat) :
    ∀ fuel cur vis g, (ccdVisit t fuel cur vis g).2 = g := by
  intro fuel
  induction fuel with
  | zero => intro cur vis g; rfl
  | succ f ih =>
    intro cur vis g
    by_cases h : cur = t
    · simp [ccdVisit, h]
    · simp only [ccdVisit, if_neg h]
      exact ccdAnyWith_graph (fun u v gg => ih u v gg) _ _ _

theorem ccdAnyWith_false {f : Nat → List Nat → Graph → Bool × Graph}
    (hf : ∀ u vis g, f u vis g = (false, g)) :
    ∀ us vis g, ccdAnyWith f us vis g = (false, g) := by
  intro us
  induction us with
  | nil => intro vis g; rfl
  | cons u rest ih =>
    intro vis g
    by_cases h : u ∈ vis
    · simp only [ccdAnyWith, if_pos h]; exact ih vis g
    · simp only [ccdAnyWith, if_neg h, hf u vis g]
      exact ih vis g

/-! ## Absorption of `add_edge` on an existing edge -/

theorem addNbr_absorb {g : Graph} {i x : Nat} (h : x ∈ g.nbrsOf i) :
    addNbr g i x = g := by
  rcases hv : g.lookup i with _ | v
  · rw [Graph.nbrsOf, hv] at h
    simp at h
  · have hx : x ∈ v.neighbours := by
      rw [Graph.nbrsOf, hv] at h
      simpa using h
    have hv' : lookupV g.vertices i = some v := hv
    have hfix : (fun v0 => Vertex.mk v0.item (insertNbr x v0.neighbours)) v = v := by
      cases v with
      | mk it nb =>
        have hx' : x ∈ nb := hx
        simp [insertNbr, hx']
    show (⟨updateFirst g.vertices i _⟩ : Graph) = g
    rw [updateFirst_fix hv' hfix]

/-! ## Claim theorems (first batch) -/

/-- Claim C10: every query operation — `adjacent`, `list_neighbours`,
`num_edges`, `max_degree`, `connected`, `connected_path`, `shortest_path` and
`connected_distance` — leaves the graph state unchanged: the vertex mapping
and every vertex's neighbour set are identical before and after the call. -/
theorem claim_c10_queries_pure (g : Graph) (i1 i2 md : Nat) (d : Int) :
    (g.adjacentS i1 i2).2 = g ∧ (g.listNeighboursS i1).2 = g ∧
    (g.numEdgesS).2 = g ∧ (g.maxDegreeS).2 = g ∧
    (g.connectedS i1 i2).2 = g ∧ (g.connectedPathS i1 i2 md).2 = g ∧
    (g.shortestPathS i1 i2).2 = g ∧ (g.connectedDistanceS i1 i2 d).2 = g := by
  have hcp : ∀ md0 : Nat, (g.connectedPathS i1 i2 md0).2 = g := by
    intro md0
    unfold Graph.connectedPathS
    split
    · exact (ccpVisit_restore i2 _ i1 _).2.2
    · rfl
  refine ⟨?_, ?_, rfl, rfl, ?_, hcp md, ?_, ?_⟩
  · unfold Graph.adjacentS
    rcases g.lookup i1 with _ | v1 <;> rcases g.lookup i2 with _ | v2 <;> rfl
  · unfold Graph.listNeighboursS
    rcases g.lookup i1 with _ | v <;> rfl
  · unfold Graph.connectedS
    split
    · exact dfsVisit_graph i2 21 i1 [] g
    · rfl
  · unfold Graph.shortestPathS
    exact hcp 20
  · unfold Graph.connectedDistanceS
    split
    · rfl
    · split
      · exact ccdVisit_graph i2 _ i1 [] g
      · rfl

/-- Claim C3: for `item1 ≠ item2`, `add_edge(item1, item2)` raises `ValueError`
iff one of the items is not a vertex of the graph; when it raises the graph is
left unchanged; when both are present it adds each endpoint to the other's
neighbour set, idempotently. -/
theorem claim_c3_addEdge (g : Graph) (i1 i2 : Nat) (hne : i1 ≠ i2) :
    (g.addEdgeRaises i1 i2 = true ↔
      ¬(g.present i1 = true ∧ g.present i2 = true)) ∧
    (g.addEdgeRaises i1 i2 = true → g.addEdge i1 i2 = g) ∧
    (g.present i1 = true → g.present i2 = true →
      i2 ∈ (g.addEdge i1 i2).nbrsOf i1 ∧ i1 ∈ (g.addEdge i1 i2).nbrsOf i2 ∧
      (g.addEdge i1 i2).addEdge i1 i2 = g.addEdge i1 i2) := by
  refine ⟨?_, ?_, ?_⟩
  · rcases hp1 : g.present i1 <;> rcases hp2 : g.present i2 <;>
      simp [Graph.addEdgeRaises, hp1, hp2]
  · intro h
    unfold Graph.addEdgeRaises at h
    unfold Graph.addEdge
    rcases hp : (g.present i1 && g.present i2)
    · rw [if_neg (by simp [hp])]
    · rw [hp] at h; cases h
  · intro h1 h2
    have hm1 : i2 ∈ (g.addEdge i1 i2).nbrsOf i1 := by
      rw [nbrsOf_addEdge_fst hne h1 h2]
      exact self_mem_insertNbr _ _
    have hm2 : i1 ∈ (g.addEdge i1 i2).nbrsOf i2 := by
      rw [nbrsOf_addEdge_snd hne h1 h2]
      exact self_mem_insertNbr _ _
    refine ⟨hm1, hm2, ?_⟩
    have h1' : (g.addEdge i1 i2).present i1 = true := by
      rw [present_addEdge]; exact h1
    have h2' : (g.addEdge i1 i2).present i2 = true := by
      rw [present_addEdge]; exact h2
    rw [addEdge_of_present h1' h2', addNbr_absorb hm1, addNbr_absorb hm2]

/-- Witness for C3 at a concrete input: the spec's end-to-end graph with the
distinct present items `0` and `1`. -/
theorem claim_c3_witness :
    (gW.addEdgeRaises 0 1 = true ↔
      ¬(gW.present 0 = true ∧ gW.present 1 = true)) ∧
    (gW.addEdgeRaises 0 1 = true → gW.addEdge 0 1 = gW) ∧
    (gW.present 0 = true → gW.present 1 = true →
      1 ∈ (gW.addEdge 0 1).nbrsOf 0 ∧ 0 ∈ (gW.addEdge 0 1).nbrsOf 1 ∧
      (gW.addEdge 0 1).addEdge 0 1 = gW.addEdge 0 1) :=
  claim_c3_addEdge gW 0 1 (by decide)

theorem any_beq_eq_mem (l : List Nat) (x : Nat) :
    (l.any fun u => u == x) = decide (x ∈ l) := by
  induction l with
  | nil => rfl
  | cons a rest ih =>
    rw [Bool.eq_iff_iff]
    simp only [List.any_cons, Bool.or_eq_true, beq_iff_eq, ih, decide_eq_true_eq,
      List.mem_cons]
    constructor
    · rintro (rfl | h)
      · exact Or.inl rfl
      · exact Or.inr h
    · rintro (rfl | h)
      · exact Or.inl rfl
      · exact Or.inr h

/-- Rewriting `adjacent` in terms of presence and neighbour membership. -/
theorem adjacent_eq (g : Graph) (i1 i2 : Nat) :
    g.adjacent i1 i2 = (g.present i1 && g.present i2 && decide (i1 ∈ g.nbrsOf i2)) := by
  unfold Graph.adjacent Graph.adjacentS
  rcases h1 : g.lookup i1 with _ | v1 <;> rcases h2 : g.lookup i2 with _ | v2 <;>
    simp [Graph.present, Graph.nbrsOf, h1, h2, any_beq_eq_mem]

/-- Claim C4: on every graph built via `add_vertex`/`add_edge` (used under
their documented preconditions), `adjacent(a, b) == adjacent(b, a)`. -/
theorem claim_c4_adjacent_symm {g : Graph} (hb : Built g) (a b : Nat) :
    g.adjacent a b = g.adjacent b a := by
  have wf := built_wf hb
  rw [adjacent_eq, adjacent_eq, Bool.and_comm (g.present a) (g.present b),
    decide_eq_decide.mpr ⟨fun h => wf.symm b a h, fun h => wf.symm a b h⟩]

/-- The spec's end-to-end graph is built through the documented interface. -/
theorem built_gW : Built gW :=
  Built.addE (Built.addE (Built.addE
    (Built.addV (Built.addV (Built.addV (Built.addV Built.empty (by decide))
      (by decide)) (by decide)) (by decide))
    (by decide) (by decide) (by decide))
    (by decide) (by decide) (by decide))
    (by decide) (by decide) (by decide)

/-- Witness for C4 at a concrete input. -/
theorem claim_c4_witness : gW.adjacent 0 1 = gW.adjacent 1 0 :=
  claim_c4_adjacent_symm built_gW 0 1

/-- Claim C5: every graph reachable from the empty graph by precondition-
respecting `add_vertex`/`add_edge` calls satisfies: every key of the vertex
mapping maps to a `Vertex` whose own item equals that key; the neighbour
relation is symmetric; and no vertex is its own neighbour. -/
theorem claim_c5_invariants {g : Graph} (hb : Built g) :
    (∀ p ∈ g.vertices, (p : Nat × Vertex).2.item = p.1) ∧
    (∀ i j, j ∈ g.nbrsOf i ↔ i ∈ g.nbrsOf j) ∧
    (∀ i, i ∉ g.nbrsOf i) := by
  have wf := built_wf hb
  exact ⟨wf.items, fun i j => ⟨fun h => wf.symm i j h, fun h => wf.symm j i h⟩,
    wf.irrefl⟩

/-- Witness for C5 at a concrete input. -/
theorem claim_c5_witness :
    (∀ p ∈ gW.vertices, (p : Nat × Vertex).2.item = p.1) ∧
    (∀ i j, j ∈ gW.nbrsOf i ↔ i ∈ gW.nbrsOf j) ∧
    (∀ i, i ∉ gW.nbrsOf i) :=
  claim_c5_invariants built_gW

/-! ## Claim C2: `connected_distance` with budget `0` -/

/-- Counterexample to C2 as stated: the claim quantifies over every graph and
all items, but on the empty graph with `a = b = 0` (an item absent from the
graph) `connected_distance(0, 0, 0)` returns `False` while `a == b` holds. -/
theorem claim_c2_counterexample :
    ¬(Graph.empty.connectedDistance 0 0 0 = true ↔ (0 : Nat) = 0) := by
  decide

/-- Claim C2 amended: for items `a`, `b` PRESENT in the graph,
`connected_distance(a, b, 0)` returns true iff `a == b`. -/
theorem claim_c2_amended (g : Graph) (a b : Nat)
    (ha : g.present a = true) (hb : g.present b = true) :
    (g.connectedDistance a b 0 = true ↔ a = b) := by
  unfold Graph.connectedDistance Graph.connectedDistanceS
  rw [if_neg (by norm_num : ¬((0 : Int) > 20)), if_pos (by rw [ha, hb]; rfl),
    show ((0 : Int) + 1).toNat = 1 from rfl]
  by_cases h : a = b
  · subst h; simp [ccdVisit]
  · simp only [ccdVisit, if_neg h]
    rw [ccdAnyWith_false (fun u v gg => rfl) _ _ _]
    simp [h]

/-- Witness for the amended C2 at a concrete input. -/
theorem claim_c2_witness :
    gW.present 0 = true ∧ (gW.connectedDistance 0 0 0 = true ↔ (0 : Nat) = 0) :=
  ⟨by decide, claim_c2_amended gW 0 0 (by decide) (by decide)⟩

/-! ## Claim C6: the path-recording heuristic -/

/-- Claim C6: in `check_connected_path`, when the current vertex's item equals
the target, the candidate path is not already recorded, and at least one path
has been recorded, the candidate is appended iff
`matching < len(path) - len(path) // 3`, where `matching` counts position-wise
agreements with the most recently recorded path over the overlapping length;
when no path has been recorded yet, the candidate is always appended. -/
theorem claim_c6_accept (t cur : Nat) (path : List Nat) (final : List (List Nat))
    (hcur : cur = t) (hdup : path ∉ final) :
    (final ≠ [] →
      (acceptStep t cur path final = final ++ [path] ↔
        countMatch (final.getLastD []) path < path.length - path.length / 3)) ∧
    (final = [] → acceptStep t cur path final = final ++ [path]) := by
  constructor
  · intro hne
    unfold acceptStep
    rw [if_pos ⟨hcur, hdup⟩,
      if_pos (fun hh => hne (List.length_eq_zero.mp hh))]
    split_ifs with hc
    · exact ⟨fun _ => hc, fun _ => rfl⟩
    · constructor
      · intro h
        exact absurd (congrArg List.length h) (by simp)
      · intro h; exact absurd h hc
  · intro h0
    subst h0
    simp [acceptStep, hcur]

/-- Witness for C6 at a concrete input: candidate `[1, 5]` against the
recorded `[1, 2, 5]` (`matching = 1 < 2 = 2 - 2 // 3`, so it is appended). -/
theorem claim_c6_witness :
    acceptStep 5 5 [1, 5] [[1, 2, 5]] = [[1, 2, 5]] ++ [[1, 5]] :=
  ((claim_c6_accept 5 5 [1, 5] [[1, 2, 5]] rfl (by decide)).1
    (by decide)).mpr (by decide)

/-! ## Claim C8: no duplicate paths in the result list -/

theorem nodup_concat_of {l : List (List Nat)} {a : List Nat}
    (h : l.Nodup) (ha : a ∉ l) : (l ++ [a]).Nodup := by
  rw [List.nodup_append]
  exact ⟨h, List.nodup_singleton a, by simpa [List.disjoint_left]⟩

theorem acceptStep_nodup {t cur : Nat} {path : List Nat} {final : List (List Nat)}
    (h : final.Nodup) : (acceptStep t cur path final).Nodup := by
  unfold acceptStep
  split_ifs with h1 h2 h3
  · exact nodup_concat_of h h1.2
  · exact h
  · exact nodup_concat_of h h1.2
  · exact h

theorem ccpVisit_nodup (t : Nat) :
    ∀ fuel cur s, s.final.Nodup → (ccpVisit t fuel cur s).final.Nodup := by
  intro fuel
  induction fuel with
  | zero => intro cur s hs; exact hs
  | succ f ih =>
    intro cur s hs
    simp only [ccpVisit]
    exact ccpFoldWith_pres (P := fun s' => s'.final.Nodup)
      (fun u s' hs' => ih u s' hs') _ _ (acceptStep_nodup hs)

/-- Claim C8: for all items and every depth cap, the result list returned by
`connected_path` never contains two identical item sequences. -/
theorem claim_c8_no_duplicates (g : Graph) (i1 i2 md : Nat)
    (res : List (List Nat)) (h : g.connectedPath i1 i2 md = some res) :
    res.Nodup := by
  unfold Graph.connectedPath Graph.connectedPathS at h
  by_cases hp : (g.present i1 && g.present i2) = true
  · rw [if_pos hp] at h
    simp only [Option.some.injEq] at h
    subst h
    exact ccpVisit_nodup i2 _ i1 _ (by simp)
  · rw [if_neg hp] at h
    cases h

set_option maxRecDepth 10000 in
/-- Witness for C8 at a concrete input. -/
theorem claim_c8_witness : ([[0, 1, 2, 3]] : List (List Nat)).Nodup :=
  claim_c8_no_duplicates gW 0 3 20 [[0, 1, 2, 3]] (by decide)

/-! ## Claim C7: `shortest_path` -/

theorem head?_append_ne {l l' : List Nat} (h : l ≠ []) :
    (l ++ l').head? = l.head? := by
  cases l
  · cases h rfl
  · rfl

theorem mem_acceptStep {t cur : Nat} {path q : List Nat} {final : List (List Nat)}
    (hq : q ∈ acceptStep t cur path final) :
    q ∈ final ∨ (q = path ∧ cur = t) := by
  unfold acceptStep at hq
  split_ifs at hq with h1 h2 h3
  · rcases List.mem_append.mp hq with h | h
    · exact Or.inl h
    · exact Or.inr ⟨List.mem_singleton.mp h, h1.1⟩
  · exact Or.inl hq
  · rcases List.mem_append.mp hq with h | h
    · exact Or.inl h
    · exact Or.inr ⟨List.mem_singleton.mp h, h1.1⟩
  · exact Or.inl hq

theorem ccpVisit_headlast (t a : Nat) :
    ∀ fuel cur s, (s.path ++ [cur]).head? = some a →
      (∀ p ∈ s.final, p.head? = some a ∧ p.getLast? = some t) →
      ∀ p ∈ (ccpVisit t fuel cur s).final,
        p.head? = some a ∧ p.getLast? = some t := by
  intro fuel
  induction fuel with
  | zero => intro cur s _ hf p hp; exact hf p hp
  | succ f ih =>
    intro cur s hh hf
    simp only [ccpVisit]
    have hstep : ∀ p ∈ acceptStep t cur (s.path ++ [cur]) s.final,
        p.head? = some a ∧ p.getLast? = some t := by
      intro p hp
      rcases mem_acceptStep hp with h | ⟨hq, hc⟩
      · exact hf p h
      · subst hq
        refine ⟨hh, ?_⟩
        rw [List.getLast?_concat]
        exact congrArg some hc
    have h2 := ccpFoldWith_pres
      (f := ccpVisit t f)
      (P := fun s' => s'.path = s.path ++ [cur] ∧
        ∀ p ∈ s'.final, p.head? = some a ∧ p.getLast? = some t)
      (fun u s' hs' => by
        obtain ⟨hpath, hfin⟩ := hs'
        refine ⟨(ccpVisit_restore t f u s').2.1.trans hpath, ?_⟩
        apply ih u s'
        · rw [hpath, head?_append_ne (by simp)]
          exact hh
        · exact hfin)
      (s.graph.nbrsOf cur)
      ⟨s.visited ++ [cur], s.path ++ [cur],
        acceptStep t cur (s.path ++ [cur]) s.final, s.graph⟩
      ⟨rfl, hstep⟩
    exact h2.2

/-- Helper: `connected_path` only returns paths leading from the first item to the
second. -/
theorem connectedPath_inv (g : Graph) (a b md : Nat) {res : List (List Nat)}
    (h : g.connectedPath a b md = some res) :
    ∀ p ∈ res, p.head? = some a ∧ p.getLast? = some b := by
  unfold Graph.connectedPath Graph.connectedPathS at h
  by_cases hp : (g.present a && g.present b) = true
  · rw [if_pos hp] at h
    simp only [Option.some.injEq] at h
    subst h
    exact ccpVisit_headlast b a _ a _ (by simp) (by simp)
  · rw [if_neg hp] at h
    cases h

theorem minPath_spec : ∀ (ps : List (List Nat)) (init : List Nat),
    (minPath init ps = init ∨ minPath init ps ∈ ps) ∧
    (minPath init ps).length ≤ init.length ∧
    ∀ q ∈ ps, (minPath init ps).length ≤ q.length := by
  intro ps
  induction ps with
  | nil => intro init; exact ⟨Or.inl rfl, le_refl _, by simp⟩
  | cons q rest ih =>
    intro init
    simp only [minPath, List.foldl_cons]
    by_cases h : q.length < init.length
    · rw [if_pos h]
      obtain ⟨hmem, hle, hall⟩ := ih q
      refine ⟨?_, ?_, ?_⟩
      · rcases hmem with h' | h'
        · exact Or.inr (by
            show minPath q rest ∈ q :: rest
            rw [h']
            exact List.mem_cons_self _ _)
        · exact Or.inr (List.mem_cons_of_mem _ h')
      · exact hle.trans (le_of_lt h)
      · intro r hr
        rcases List.mem_cons.mp hr with rfl | hr'
        · exact hle
        · exact hall r hr'
    · rw [if_neg h]
      obtain ⟨hmem, hle, hall⟩ := ih init
      refine ⟨?_, hle, ?_⟩
      · rcases hmem with h' | h'
        · exact Or.inl h'
        · exact Or.inr (List.mem_cons_of_mem _ h')
      · intro r hr
        rcases List.mem_cons.mp hr with rfl | hr'
        · exact hle.trans (not_lt.mp h)
        · exact hall r hr'

theorem shortestPath_eq (g : Graph) (a b : Nat) :
    g.shortestPath a b =
      match g.connectedPath a b 20 with
      | none => none
      | some [] => none
      | some (p :: ps) => some (minPath p (p :: ps)) := rfl

/-- Claim C7: `shortest_path(a, b)` returns `None` exactly when
`connected_path` yields no paths (`None` or the empty list); otherwise it
returns a sequence whose first element is `a`, whose last element is `b`,
and whose length is at most the length of every path in the retained result
set of that query. -/
theorem claim_c7_shortestPath (g : Graph) (a b : Nat) :
    (g.shortestPath a b = none ↔
      (g.connectedPath a b 20 = none ∨ g.connectedPath a b 20 = some [])) ∧
    (∀ p, g.shortestPath a b = some p →
      p.head? = some a ∧ p.getLast? = some b ∧
      ∀ q ∈ (g.connectedPath a b 20).getD [], p.length ≤ q.length) := by
  rw [shortestPath_eq]
  rcases hcp : g.connectedPath a b 20 with _ | ps
  · simp
  · rcases ps with _ | ⟨p0, ps'⟩
    · simp
    · constructor
      · simp
      · intro p hp
        simp only [Option.some.injEq] at hp
        subst hp
        obtain ⟨hmem, hle, hall⟩ := minPath_spec (p0 :: ps') p0
        have hmem' : minPath p0 (p0 :: ps') ∈ p0 :: ps' := by
          rcases hmem with h' | h'
          · rw [h']; exact List.mem_cons_self _ _
          · exact h'
        obtain ⟨hhead, hlast⟩ := connectedPath_inv g a b 20 hcp _ hmem'
        refine ⟨hhead, hlast, ?_⟩
        simpa using hall

set_option maxRecDepth 10000 in
/-- Witness for C7 at a concrete input: on the spec's end-to-end graph,
`shortest_path(0, 3) = [0, 1, 2, 3]`. -/
theorem claim_c7_witness :
    ([0, 1, 2, 3] : List Nat).head? = some 0 ∧
    ([0, 1, 2, 3] : List Nat).getLast? = some 3 ∧
    ∀ q ∈ (gW.connectedPath 0 3 20).getD [],
      ([0, 1, 2, 3] : List Nat).length ≤ q.length :=
  (claim_c7_shortestPath gW 0 3).2 [0, 1, 2, 3] (by decide)

/-! ## Claim C9: the depth-cap delegation of `connected_path` -/

set_option maxRecDepth 20000 in
/-- Counterexample to C9 as stated: with `maxDepth = 21` the code does not
delegate with the given depth cap.  On the 21-edge chain, delegation with the
given cap (the spec-modelled `specConnectedPath`) finds the full chain path,
but `connected_path` silently substitutes the default cap `20` and returns an
empty result list. -/
theorem claim_c9_counterexample :
    gChain.connectedPath 0 21 21 ≠ specConnectedPath gChain 0 21 21 := by
  decide

/-- Claim C9 amended: `connected_path(item1, item2, maxDepth)` returns `None`
iff either item is unknown; otherwise it delegates to `check_connected_path`
with fresh empty visited/path/result containers and the depth cap
`min maxDepth 20` — the given cap only when `maxDepth ≤ 20`, and the default
cap `20` otherwise. -/
theorem claim_c9_amended (g : Graph) (i1 i2 md : Nat) :
    (g.connectedPath i1 i2 md = none ↔
      ¬(g.present i1 = true ∧ g.present i2 = true)) ∧
    g.connectedPath i1 i2 md = specConnectedPath g i1 i2 (min md 20) := by
  unfold Graph.connectedPath Graph.connectedPathS specConnectedPath
  by_cases hp : (g.present i1 && g.present i2) = true
  · rw [if_pos hp, if_pos hp]
    rw [Bool.and_eq_true] at hp
    constructor
    · simp [hp.1, hp.2]
    · show some _ = some _
      rw [Nat.min_def]
  · rw [if_neg hp, if_neg hp]
    rw [Bool.and_eq_true] at hp
    constructor
    · simp [hp]
    · rfl

/-! ## Claim C1: `connected` versus existence of simple paths -/

set_option maxRecDepth 20000 in
/-- Counterexample to C1 as stated: in `gC1`, items `0` and `21` are present
and joined by the simple path `[0, 20, 21]` of 2 edges (far below the 20-step
ceiling; the whole graph's diameter is also at most 20), yet `connected(0, 21)`
returns `False`.  The search walks the chain `0-1-…-19-20` first, marks vertex
`20` visited at call depth 20 where the depth guard cuts off its neighbours,
and the shared visited set then blocks the short path `0-20-21`. -/
theorem claim_c1_counterexample :
    gC1.present 0 = true ∧ gC1.present 21 = true ∧
    IsSimplePath gC1 0 21 [0, 20, 21] ∧ ([0, 20, 21] : List Nat).length ≤ 21 ∧
    gC1.connected 0 21 = false := by
  decide

theorem dfsFoldWith_sound {f : Nat → List Nat → Graph → Bool × List Nat × Graph}
    {g : Graph} {Q : Nat → List Nat → Prop}
    (hframe : ∀ u vis h, (f u vis h).2.2 = h)
    (hmono : ∀ u vis h, vis ⊆ (f u vis h).2.1)
    (hf : ∀ u vis, u ∉ vis → (f u vis g).1 = true →
      ∃ p, Q u p ∧ ∀ x ∈ p, x ∉ vis) :
    ∀ us vis, (dfsFoldWith f us vis g).1 = true →
      ∃ u ∈ us, ∃ p, Q u p ∧ ∀ x ∈ p, x ∉ vis := by
  intro us
  induction us with
  | nil => intro vis h; simp [dfsFoldWith] at h
  | cons u rest ih =>
    intro vis hres
    by_cases h : u ∈ vis
    · simp only [dfsFoldWith, if_pos h] at hres
      obtain ⟨u', hu', p, hQ, hvis⟩ := ih vis hres
      exact ⟨u', List.mem_cons_of_mem _ hu', p, hQ, hvis⟩
    · simp only [dfsFoldWith, if_neg h] at hres
      rcases he : f u vis g with ⟨b, vis2, g2⟩
      rw [he] at hres
      have hg2 : g2 = g := by
        have := hframe u vis g; rw [he] at this; exact this
      have hsub : vis ⊆ vis2 := by
        have := hmono u vis g; rw [he] at this; exact this
      cases b
      · have hres' : (dfsFoldWith f rest vis2 g).1 = true := by
          rw [← hg2]; exact hres
        obtain ⟨u', hu', p, hQ, hvis2⟩ := ih vis2 hres'
        exact ⟨u', List.mem_cons_of_mem _ hu', p, hQ,
          fun x hx hxv => hvis2 x hx (hsub hxv)⟩
      · obtain ⟨p, hQ, hvis⟩ := hf u vis h (by rw [he])
        exact ⟨u, List.mem_cons_self _ _, p, hQ, hvis⟩

theorem dfsVisit_sound (t : Nat) (g : Graph) :
    ∀ fuel cur vis, cur ∉ vis → (dfsVisit t fuel cur vis g).1 = true →
      ∃ p : List Nat, p ≠ [] ∧ p.head? = some cur ∧ p.getLast? = some t ∧
        chainOk g p = true ∧ p.Nodup ∧ p.length ≤ fuel ∧ ∀ x ∈ p, x ∉ vis := by
  intro fuel
  induction fuel with
  | zero => intro cur vis _ hres; simp [dfsVisit] at hres
  | succ f ih =>
    intro cur vis hcv hres
    by_cases h : cur = t
    · subst h
      refine ⟨[cur], by simp, rfl, rfl, rfl, by simp, by simp only [List.length_singleton]; omega, ?_⟩
      intro x hx
      rw [List.mem_singleton] at hx
      subst hx
      exact hcv
    · simp only [dfsVisit, if_neg h] at hres
      have hsound := dfsFoldWith_sound
        (f := dfsVisit t f) (g := g)
        (Q := fun u p => p ≠ [] ∧ p.head? = some u ∧ p.getLast? = some t ∧
          chainOk g p = true ∧ p.Nodup ∧ p.length ≤ f)
        (fun u v hh => dfsVisit_graph t f u v hh)
        (fun u v hh => dfsVisit_mono t f u v hh)
        (fun u v hu ht => by
          obtain ⟨p, h1, h2, h3, h4, h5, h6, h7⟩ := ih u v hu ht
          exact ⟨p, ⟨h1, h2, h3, h4, h5, h6⟩, h7⟩)
        (g.nbrsOf cur) (insertNew cur vis) hres
      obtain ⟨u, hu, p, ⟨h1, h2, h3, h4, h5, h6⟩, h7⟩ := hsound
      refine ⟨cur :: p, by simp, rfl, ?_, ?_, ?_, ?_, ?_⟩
      · rcases p with _ | ⟨q, qs⟩
        · cases h1 rfl
        · rw [List.getLast?_cons_cons]
          exact h3
      · rcases p with _ | ⟨q, qs⟩
        · cases h1 rfl
        · have hq : q = u := by simpa using h2
          subst hq
          show (decide (q ∈ g.nbrsOf cur) && chainOk g (q :: qs)) = true
          rw [Bool.and_eq_true]
          exact ⟨decide_eq_true hu, h4⟩
      · rw [List.nodup_cons]
        refine ⟨?_, h5⟩
        intro hcurp
        exact h7 cur hcurp (self_mem_insertNew cur vis)
      · simpa using Nat.succ_le_succ h6
      · intro x hx
        rcases List.mem_cons.mp hx with rfl | hx'
        · exact hcv
        · exact fun hxv => h7 x hx' (subset_insertNew cur vis hxv)

/-- Claim C1 amended (the soundness half survives): whenever
`connected(a, b)` returns true, some finite simple path from `a` to `b` with
at most 21 vertices (at most 20 edges, the call-depth ceiling) exists in the
graph.  The "if" direction of the claimed equivalence — and with it the
agreement with true reachability on graphs of diameter at most 20 — fails,
as the counterexample shows. -/
theorem claim_c1_amended (g : Graph) (a b : Nat)
    (h : g.connected a b = true) :
    ∃ p : List Nat, IsSimplePath g a b p ∧ p.length ≤ 21 := by
  unfold Graph.connected Graph.connectedS at h
  by_cases hp : (g.present a && g.present b) = true
  · rw [if_pos hp] at h
    obtain ⟨p, h1, h2, h3, h4, h5, h6, h7⟩ :=
      dfsVisit_sound b g 21 a [] (by simp) h
    exact ⟨p, ⟨h1, h2, h3, h5, h4⟩, h6⟩
  · rw [if_neg hp] at h
    simp at h

set_option maxRecDepth 10000 in
/-- Witness for the amended C1 at a concrete input. -/
theorem claim_c1_witness :
    ∃ p : List Nat, IsSimplePath gW 0 3 p ∧ p.length ≤ 21 :=
  claim_c1_amended gW 0 3 (by decide)
